/-
Verification of the server-list container of the `bugle` repository
(`src/servers/containers.rs`): filtered and sorted views over a shared
backing sequence of server records, the filter predicate, and the sort
comparator with its id tie-break.

Embedding conventions:
* Rust strings are modelled as lists of naturals (their byte/code-point
  sequences); `String::cmp` is lexicographic comparison.
* The `Mode`/`Region` enumerations and the opaque server `id` live in
  `src/servers/model.rs`, which is not part of the available sources; they
  are modelled from the spec as naturals carrying their derived total order.
* `Vec::sort_unstable_by` is modelled by `List.mergeSort` on the comparator's
  "not greater" relation: the properties proved below depend only on the
  sorted-ness and permutation contract shared by every comparison sort.
* The `regex` crate values reachable in this module are `Regex::new("")` and
  case-insensitive literals built from `regex::escape`d input, so a compiled
  regex is modelled as a literal string plus a case-insensitivity flag, with
  substring-search semantics; case folding is modelled on the ASCII range.
* Fallible operations (`Option::unwrap` on `RegexBuilder::build`) are
  modelled with `Option`, `none` standing for a panic.
-/
import Mathlib

set_option maxHeartbeats 1000000

namespace Bugle

/-- A Rust string, as its sequence of code points. -/
abbrev Str := List Nat

/-- Embedding of `Ord::cmp` on integers (the server `id`, `build_id`,
and the derived `Mode`/`Region` orders). -/
def natCmp (a b : Nat) : Ordering :=
  if a < b then .lt else if b < a then .gt else .eq

/-- Embedding of `String::cmp`: lexicographic comparison. -/
def strCmp : Str → Str → Ordering
  | [], [] => .eq
  | [], _ :: _ => .lt
  | _ :: _, [] => .gt
  | a :: as, b :: bs => (natCmp a b).then (strCmp as bs)

/-- Modelled from the spec: `src/servers/model.rs` (the `Server` record with
its `Mode`, `Region`, `Kind`, `Ownership` types) is not under `src/`.  Per
spec §3, a record carries a stable opaque `id` (used only as tie-break),
display strings `name` and `map`, a derived comparable `mode` value (a
function of kind and ownership, exposed as a single sortable value, modelled
directly), an enumerated `region`, an integer `build_id`, and a
`password_protected` flag.  Fields not consulted by the container code
(player counters, validity, address) are omitted. -/
structure Server where
  id : Nat
  name : Str
  map : Str
  mode : Nat
  region : Nat
  build_id : Nat
  password_protected : Bool
deriving DecidableEq

/-- A placeholder record used only for out-of-range index reads, which the
Rust code would turn into a panic; all theorems below stay in range. -/
def dServer : Server := ⟨0, [], [], 0, 0, 0, false⟩

/-- Embedding of `SortKey` from `containers.rs`. -/
inductive SortKey
  | Name
  | Map
  | Mode
  | Region
deriving DecidableEq

/-- Embedding of `SortCriteria` from `containers.rs`. -/
structure SortCriteria where
  key : SortKey
  ascending : Bool
deriving DecidableEq

/-- Embedding of `SortCriteria::reversed`. -/
def SortCriteria.reversed (c : SortCriteria) : SortCriteria :=
  { key := c.key, ascending := !c.ascending }

/-- Embedding of `SortCriteria::tie_breaker`: compare by `id`. -/
def SortCriteria.tie_breaker (lhs rhs : Server) : Ordering :=
  natCmp lhs.id rhs.id

/-- The per-key primary comparison selected in `SortCriteria::comparator`. -/
def keyCmp : SortKey → Server → Server → Ordering
  | .Name => fun lhs rhs => strCmp lhs.name rhs.name
  | .Map => fun lhs rhs => strCmp lhs.map rhs.map
  | .Mode => fun lhs rhs => natCmp lhs.mode rhs.mode
  | .Region => fun lhs rhs => natCmp lhs.region rhs.region

/-- Embedding of `SortCriteria::comparator`: primary key comparison, then the `id`
tie-break, the whole ordering reversed when `ascending` is false. -/
def SortCriteria.comparator (c : SortCriteria) : Server → Server → Ordering :=
  let cmp := fun lhs rhs => (keyCmp c.key lhs rhs).then (SortCriteria.tie_breaker lhs rhs)
  if c.ascending then cmp else fun lhs rhs => (cmp lhs rhs).swap

/-- ASCII case folding of one code point (model of the case-insensitive
matching the `regex` crate performs). -/
def foldNat (c : Nat) : Nat :=
  if 65 ≤ c ∧ c ≤ 90 then c + 32 else c

/-- Case folding of a whole string. -/
def foldStr (s : Str) : Str := s.map foldNat

/-- Whether `p` starts the string (second argument). -/
def strLeads : Str → Str → Bool
  | [], _ => true
  | _ :: _, [] => false
  | a :: as, b :: bs => a == b && strLeads as bs

/-- Whether `p` occurs contiguously inside the string (substring search,
the semantics of matching a literal regex). -/
def strHas (p : Str) : Str → Bool
  | [] => p.isEmpty
  | b :: bs => strLeads p (b :: bs) || strHas p bs

/-- The `regex` crate values this module can construct: `Regex::new("")`
(the default filter) or a case-insensitive literal built from
`regex::escape`d input.  Such a regex denotes substring search for the
literal, case-insensitively when the flag is set. -/
structure CRegex where
  lit : Str
  ci : Bool
deriving DecidableEq

/-- Embedding of `Regex::is_match` for the representable regexes. -/
def CRegex.is_match (r : CRegex) (hay : Str) : Bool :=
  if r.ci then strHas (foldStr r.lit) (foldStr hay) else strHas r.lit hay

/-- The code points `regex::escape` prefixes with a backslash:
`\ . + * ? ( ) | [ ] \x7b \x7d ^ $ # & - ~`. -/
def isMeta (c : Nat) : Bool :=
  [92, 46, 43, 42, 63, 40, 41, 124, 91, 93, 123, 125, 94, 36, 35, 38, 45, 126].contains c

/-- Embedding of `regex::escape`: prefix every metacharacter with a backslash (92). -/
def escapeRe (s : Str) : Str :=
  s.flatMap fun c => if isMeta c then [92, c] else [c]

/-- Parser for the fragment of regex syntax this program exercises:
sequences of literal atoms, where a backslash followed by a character
denotes that character literally.  A trailing backslash is a syntax error,
and an unescaped metacharacter is pattern syntax outside the literal
fragment, so parsing it as a plain literal fails. -/
def parseLit : Str → Option Str
  | [] => some []
  | c :: rest =>
    if c = 92 then
      match rest with
      | [] => none
      | d :: rest2 => (parseLit rest2).map (d :: ·)
    else if isMeta c then none
    else (parseLit rest).map (c :: ·)

/-- Model of `RegexBuilder::new(pat).case_insensitive(ci).build()` on the
literal fragment: succeeds exactly when the pattern is a literal sequence. -/
def buildRe (pat : Str) (ci : Bool) : Option CRegex :=
  (parseLit pat).map fun l => { lit := l, ci := ci }

/-- Embedding of `Filter` from `containers.rs`. -/
structure Filter where
  name : CRegex
  map : CRegex
  mode : Option Nat
  region : Option Nat
  build_id : Option Nat
  password_protected : Bool
deriving DecidableEq

/-- Embedding of `Filter::default`: `Regex::new("")` compiles to the empty literal
without the case-insensitive flag; every optional criterion absent;
password-protected servers excluded. -/
def Filter.default : Filter :=
  { name := { lit := [], ci := false }
    map := { lit := [], ci := false }
    mode := none
    region := none
    build_id := none
    password_protected := false }

/-- Embedding of `Filter::set_name`: escape the input, build a case-insensitive regex.
The source calls `.unwrap()` on the build, so a failed build is a panic,
modelled as `none`. -/
def Filter.set_name (f : Filter) (name : Str) : Option Filter :=
  (buildRe (escapeRe name) true).map fun r => { f with name := r }

/-- Embedding of `Filter::set_map`, same shape as `Filter::set_name`. -/
def Filter.set_map (f : Filter) (map : Str) : Option Filter :=
  (buildRe (escapeRe map) true).map fun r => { f with map := r }

/-- Embedding of `Filter::set_mode`. -/
def Filter.set_mode (f : Filter) (mode : Option Nat) : Filter :=
  { f with mode := mode }

/-- Embedding of `Filter::set_region`. -/
def Filter.set_region (f : Filter) (region : Option Nat) : Filter :=
  { f with region := region }

/-- Embedding of `Filter::set_build_id`. -/
def Filter.set_build_id (f : Filter) (build_id : Option Nat) : Filter :=
  { f with build_id := build_id }

/-- Embedding of `Filter::set_password_protected`. -/
def Filter.set_password_protected (f : Filter) (password_protected : Bool) : Filter :=
  { f with password_protected := password_protected }

/-- Rust `bool` ordering: `a <= b` is `!a || b`; the filter's
`password_protected >= server.password_protected` conjunct is
`boolLe server.password_protected filter.password_protected`. -/
def boolLe (a b : Bool) : Bool := !a || b

/-- Embedding of `Filter::matches`: the conjunction of the six criteria.
`Option::map_or(true, f)` is `(·.map f).getD true`. -/
def Filter.matches (f : Filter) (server : Server) : Bool :=
  f.name.is_match server.name
    && f.map.is_match server.map
    && (f.mode.map fun mode => server.mode == mode).getD true
    && (f.region.map fun region => server.region == region).getD true
    && (f.build_id.map fun id => server.build_id == id).getD true
    && boolLe server.password_protected f.password_protected

/-- The "not greater" predicate of a comparator: the ordering relation a
comparison sort establishes between consecutive elements. -/
def cmpLe (c : α → α → Ordering) (a b : α) : Bool :=
  match c a b with
  | .gt => false
  | _ => true

/-- Embedding of `ServerListView`: a shared backing sequence plus an index sequence.
The backing `Arc<dyn Servers>` is modelled by its record sequence. -/
structure ServerListView where
  source : List Server
  indices : List Nat

/-- Embedding of `ServerListView::sorted_from`: sort the full index range by comparing
the records the indices denote. -/
def ServerListView.sorted_from (source : List Server) (criteria : SortCriteria) : ServerListView :=
  { source := source
    indices := (List.range source.length).mergeSort fun lidx ridx =>
      cmpLe criteria.comparator (source.getD lidx dServer) (source.getD ridx dServer) }

/-- Embedding of `ServerListView::filtered_from`: keep, in order, the indices whose
records match the filter. -/
def ServerListView.filtered_from (source : List Server) (filter : Filter) : ServerListView :=
  { source := source
    indices := (List.range source.length).filter fun idx =>
      filter.matches (source.getD idx dServer) }

/-- Embedding of `Servers::len` for a view. -/
def ServerListView.len (v : ServerListView) : Nat := v.indices.length

/-- Embedding of the `Index<usize>` impl for `ServerListView`: resolve through the index sequence
to the backing sequence. -/
def ServerListView.index (v : ServerListView) (i : Nat) : Server :=
  v.source.getD (v.indices.getD i 0) dServer

/-- The record sequence a view denotes (its iteration order under the
`Servers` trait). -/
def ServerListView.records (v : ServerListView) : List Server :=
  v.indices.map fun i => v.source.getD i dServer

/-- Embedding of `ServerList::sorted`, as the record sequence of the wrapped view. -/
def ServerList.sorted (l : List Server) (criteria : SortCriteria) : List Server :=
  (ServerListView.sorted_from l criteria).records

/-- Embedding of `ServerList::filtered`, as the record sequence of the wrapped view. -/
def ServerList.filtered (l : List Server) (filter : Filter) : List Server :=
  (ServerListView.filtered_from l filter).records

/-- A primary comparison through a projection, then the integer tie-break:
the shape shared by all four branches of `SortCriteria::comparator`. -/
def pCmp (B : β → β → Ordering) (f : α → β) (g : α → Nat) (a b : α) : Ordering :=
  (B (f a) (f b)).then (natCmp (g a) (g b))

/-- The comparator before the direction flip: primary key, then id. -/
def baseCmp (k : SortKey) (lhs rhs : Server) : Ordering :=
  (keyCmp k lhs rhs).then (SortCriteria.tie_breaker lhs rhs)

/-! ### Concrete fixtures used by the witness theorems -/

/-- A sample record: password-protected, name "AB". -/
def exA : Server :=
  { id := 2, name := [65, 66], map := [77, 65], mode := 1, region := 3
    build_id := 100, password_protected := true }

/-- A sample record: same name as `exA`, smaller id, not protected. -/
def exB : Server :=
  { id := 1, name := [65, 66], map := [77, 66], mode := 0, region := 2
    build_id := 100, password_protected := false }

/-- A sample record: name "aa", not protected. -/
def exC : Server :=
  { id := 5, name := [97, 97], map := [77, 65], mode := 1, region := 3
    build_id := 101, password_protected := false }

/-- A sample backing list with pairwise distinct ids. -/
def exSrc : List Server := [exA, exB, exC]

/-- A sample filter: the default with the map pattern "ma" set. -/
def exFilter : Filter :=
  { name := { lit := [], ci := false }
    map := { lit := [109, 97], ci := true }
    mode := none
    region := none
    build_id := none
    password_protected := true }

/-! ### Facts about `Ordering` and the base comparators -/

theorem then_eq_eq {x y : Ordering} : x.then y = .eq ↔ x = .eq ∧ y = .eq := by
  cases x <;> simp [Ordering.then]

theorem then_eq_lt {x y : Ordering} : x.then y = .lt ↔ x = .lt ∨ (x = .eq ∧ y = .lt) := by
  cases x <;> simp [Ordering.then]

theorem then_swap (x y : Ordering) : (x.then y).swap = x.swap.then y.swap := by
  cases x <;> rfl

theorem swap_eq_gt_iff {o : Ordering} : o.swap = .gt ↔ o = .lt := by
  cases o <;> simp [Ordering.swap]

theorem swap_eq_eq_iff {o : Ordering} : o.swap = .eq ↔ o = .eq := by
  cases o <;> simp [Ordering.swap]

theorem ord_swap_swap (o : Ordering) : o.swap.swap = o := by
  cases o <;> rfl

theorem natCmp_lt_iff {a b : Nat} : natCmp a b = .lt ↔ a < b := by
  unfold natCmp
  split
  · simp; omega
  · split <;> simp <;> omega

theorem natCmp_gt_iff {a b : Nat} : natCmp a b = .gt ↔ b < a := by
  unfold natCmp
  split
  · simp; omega
  · split <;> simp <;> omega

theorem natCmp_eq_iff {a b : Nat} : natCmp a b = .eq ↔ a = b := by
  unfold natCmp
  split
  · simp; omega
  · split <;> simp <;> omega

theorem natCmp_swap (a b : Nat) : natCmp a b = (natCmp b a).swap := by
  rcases Nat.lt_trichotomy a b with h | h | h
  · rw [natCmp_lt_iff.mpr h, show natCmp b a = .gt from natCmp_gt_iff.mpr h]
    rfl
  · subst h
    rw [natCmp_eq_iff.mpr rfl]
    rfl
  · rw [natCmp_gt_iff.mpr h, show natCmp b a = .lt from natCmp_lt_iff.mpr h]
    rfl

theorem strCmp_eq_iff : ∀ {x y : Str}, strCmp x y = .eq ↔ x = y
  | [], [] => by simp [strCmp]
  | [], _ :: _ => by simp [strCmp]
  | _ :: _, [] => by simp [strCmp]
  | a :: as, b :: bs => by
    simp only [strCmp, then_eq_eq, natCmp_eq_iff, strCmp_eq_iff, List.cons.injEq]

theorem strCmp_swap : ∀ (x y : Str), strCmp x y = (strCmp y x).swap
  | [], [] => rfl
  | [], _ :: _ => rfl
  | _ :: _, [] => rfl
  | a :: as, b :: bs => by
    simp only [strCmp, then_swap, ← natCmp_swap, ← strCmp_swap as bs]

theorem strCmp_lt_trans : ∀ {x y z : Str}, strCmp x y = .lt → strCmp y z = .lt → strCmp x z = .lt
  | [], b :: bs, c :: cs, _, _ => rfl
  | a :: as, b :: bs, c :: cs, h1, h2 => by
    simp only [strCmp, then_eq_lt, natCmp_lt_iff, natCmp_eq_iff] at h1 h2 ⊢
    rcases h1 with h1 | ⟨rfl, h1⟩ <;> rcases h2 with h2 | ⟨rfl, h2⟩
    · exact Or.inl (Nat.lt_trans h1 h2)
    · exact Or.inl h1
    · exact Or.inl h2
    · exact Or.inr ⟨rfl, strCmp_lt_trans h1 h2⟩

/-! ### Generic facts about a primary comparator followed by the id tie-break -/

theorem cmpLe_eq_true {c : α → α → Ordering} {a b : α} :
    cmpLe c a b = true ↔ c a b ≠ .gt := by
  unfold cmpLe
  cases h : c a b <;> simp

section PCmpFacts

variable {β : Type} {B : β → β → Ordering} {f : α → β} {g : α → Nat}

theorem pCmp_swap (hBs : ∀ x y, B x y = (B y x).swap) (a b : α) :
    pCmp B f g a b = (pCmp B f g b a).swap := by
  unfold pCmp
  rw [then_swap, ← hBs, ← natCmp_swap]

theorem pCmp_eq_iff (hBe : ∀ x y, B x y = .eq ↔ x = y) {a b : α} :
    pCmp B f g a b = .eq ↔ f a = f b ∧ g a = g b := by
  unfold pCmp
  rw [then_eq_eq, hBe, natCmp_eq_iff]

theorem pCmp_le_iff (hBe : ∀ x y, B x y = .eq ↔ x = y) {a b : α} :
    cmpLe (pCmp B f g) a b = true ↔
      B (f a) (f b) = .lt ∨ (f a = f b ∧ g a ≤ g b) := by
  rw [cmpLe_eq_true]
  unfold pCmp
  cases h : B (f a) (f b) with
  | lt =>
    constructor
    · intro _
      exact Or.inl rfl
    · intro _ hgt
      simp [Ordering.then] at hgt
  | eq =>
    have hfe := (hBe (f a) (f b)).mp h
    constructor
    · intro hle
      refine Or.inr ⟨hfe, ?_⟩
      by_contra hgt
      exact hle (show Ordering.eq.then (natCmp (g a) (g b)) = .gt from
        natCmp_gt_iff.mpr (by omega))
    · rintro (h' | ⟨-, hle⟩) hgt
      · simp at h'
      · have hred : Ordering.eq.then (natCmp (g a) (g b)) = natCmp (g a) (g b) := rfl
        rw [hred] at hgt
        have := natCmp_gt_iff.mp hgt
        omega
  | gt =>
    constructor
    · intro hle
      exact absurd rfl hle
    · rintro (h' | ⟨hfe, -⟩)
      · simp at h'
      · rw [(hBe _ _).mpr hfe] at h
        simp at h

theorem pCmp_le_trans (hBe : ∀ x y, B x y = .eq ↔ x = y)
    (hBt : ∀ x y z, B x y = .lt → B y z = .lt → B x z = .lt) {a b c : α} :
    cmpLe (pCmp B f g) a b = true → cmpLe (pCmp B f g) b c = true →
    cmpLe (pCmp B f g) a c = true := by
  rw [pCmp_le_iff hBe, pCmp_le_iff hBe, pCmp_le_iff hBe]
  rintro (h1 | ⟨e1, l1⟩) (h2 | ⟨e2, l2⟩)
  · exact Or.inl (hBt _ _ _ h1 h2)
  · exact Or.inl (e2 ▸ h1)
  · exact Or.inl (e1.symm ▸ h2)
  · exact Or.inr ⟨e1.trans e2, Nat.le_trans l1 l2⟩

theorem pCmp_le_total (hBe : ∀ x y, B x y = .eq ↔ x = y)
    (hBs : ∀ x y, B x y = (B y x).swap) (a b : α) :
    (cmpLe (pCmp B f g) a b || cmpLe (pCmp B f g) b a) = true := by
  rw [Bool.or_eq_true, pCmp_le_iff hBe, pCmp_le_iff hBe]
  cases hc : B (f a) (f b) with
  | lt => exact Or.inl (Or.inl rfl)
  | eq =>
    have hfe := (hBe _ _).mp hc
    rcases Nat.le_total (g a) (g b) with hle | hle
    · exact Or.inl (Or.inr ⟨hfe, hle⟩)
    · exact Or.inr (Or.inr ⟨hfe.symm, hle⟩)
  | gt =>
    have h2 : (B (f b) (f a)).swap = .gt := by
      rw [← hBs (f a) (f b)]
      exact hc
    exact Or.inr (Or.inl (swap_eq_gt_iff.mp h2))

end PCmpFacts

/-! ### Facts about `SortCriteria::comparator` -/

theorem baseCmp_swap (k : SortKey) (a b : Server) :
    baseCmp k a b = (baseCmp k b a).swap := by
  cases k
  · exact pCmp_swap strCmp_swap a b
  · exact pCmp_swap strCmp_swap a b
  · exact pCmp_swap natCmp_swap a b
  · exact pCmp_swap natCmp_swap a b

theorem baseCmp_le_trans (k : SortKey) {a b d : Server} :
    cmpLe (baseCmp k) a b = true → cmpLe (baseCmp k) b d = true →
    cmpLe (baseCmp k) a d = true := by
  cases k
  · exact pCmp_le_trans (fun _ _ => strCmp_eq_iff) (fun _ _ _ => strCmp_lt_trans)
  · exact pCmp_le_trans (fun _ _ => strCmp_eq_iff) (fun _ _ _ => strCmp_lt_trans)
  · exact pCmp_le_trans (fun _ _ => natCmp_eq_iff)
      (fun _ _ _ h1 h2 => natCmp_lt_iff.mpr (Nat.lt_trans (natCmp_lt_iff.mp h1) (natCmp_lt_iff.mp h2)))
  · exact pCmp_le_trans (fun _ _ => natCmp_eq_iff)
      (fun _ _ _ h1 h2 => natCmp_lt_iff.mpr (Nat.lt_trans (natCmp_lt_iff.mp h1) (natCmp_lt_iff.mp h2)))

theorem baseCmp_le_total (k : SortKey) (a b : Server) :
    (cmpLe (baseCmp k) a b || cmpLe (baseCmp k) b a) = true := by
  cases k
  · exact pCmp_le_total (fun _ _ => strCmp_eq_iff) strCmp_swap a b
  · exact pCmp_le_total (fun _ _ => strCmp_eq_iff) strCmp_swap a b
  · exact pCmp_le_total (fun _ _ => natCmp_eq_iff) natCmp_swap a b
  · exact pCmp_le_total (fun _ _ => natCmp_eq_iff) natCmp_swap a b

theorem baseCmp_eq_id (k : SortKey) {a b : Server} (h : baseCmp k a b = .eq) :
    a.id = b.id := by
  cases k
  · exact ((pCmp_eq_iff (fun _ _ => strCmp_eq_iff)).mp h).2
  · exact ((pCmp_eq_iff (fun _ _ => strCmp_eq_iff)).mp h).2
  · exact ((pCmp_eq_iff (fun _ _ => natCmp_eq_iff)).mp h).2
  · exact ((pCmp_eq_iff (fun _ _ => natCmp_eq_iff)).mp h).2

/-- The comparator `SortCriteria::comparator`, restated through `baseCmp`. -/
theorem comparator_eq (c : SortCriteria) :
    c.comparator = if c.ascending then baseCmp c.key
      else fun lhs rhs => (baseCmp c.key lhs rhs).swap := rfl

theorem comparator_ascending (k : SortKey) :
    SortCriteria.comparator ⟨k, true⟩ = baseCmp k := rfl

theorem comparator_descending (k : SortKey) :
    SortCriteria.comparator ⟨k, false⟩ = fun lhs rhs => (baseCmp k lhs rhs).swap := rfl

theorem cmpLe_swap_comm {m : α → α → Ordering} (hsw : ∀ x y, m x y = (m y x).swap)
    (a b : α) : cmpLe (fun lhs rhs => (m lhs rhs).swap) a b = cmpLe m b a := by
  unfold cmpLe
  rw [hsw b a]

theorem comparator_le_trans (c : SortCriteria) {a b d : Server} :
    cmpLe c.comparator a b = true → cmpLe c.comparator b d = true →
    cmpLe c.comparator a d = true := by
  obtain ⟨k, asc⟩ := c
  cases asc
  · rw [comparator_descending, cmpLe_swap_comm (baseCmp_swap k),
      cmpLe_swap_comm (baseCmp_swap k), cmpLe_swap_comm (baseCmp_swap k)]
    intro h1 h2
    exact baseCmp_le_trans k h2 h1
  · rw [comparator_ascending]
    exact baseCmp_le_trans k

theorem comparator_le_total (c : SortCriteria) (a b : Server) :
    (cmpLe c.comparator a b || cmpLe c.comparator b a) = true := by
  obtain ⟨k, asc⟩ := c
  cases asc
  · rw [comparator_descending, cmpLe_swap_comm (baseCmp_swap k),
      cmpLe_swap_comm (baseCmp_swap k), Bool.or_comm]
    exact baseCmp_le_total k a b
  · rw [comparator_ascending]
    exact baseCmp_le_total k a b

theorem comparator_eq_id (c : SortCriteria) {a b : Server}
    (h : c.comparator a b = .eq) : a.id = b.id := by
  obtain ⟨k, asc⟩ := c
  cases asc
  · rw [comparator_descending] at h
    exact baseCmp_eq_id k (swap_eq_eq_iff.mp h)
  · rw [comparator_ascending] at h
    exact baseCmp_eq_id k h

theorem comparator_reversed_swap (c : SortCriteria) (a b : Server) :
    c.reversed.comparator a b = (c.comparator a b).swap := by
  obtain ⟨k, asc⟩ := c
  cases asc
  · show baseCmp k a b = ((baseCmp k a b).swap).swap
    rw [ord_swap_swap]
  · rfl

theorem comparator_swap (c : SortCriteria) (a b : Server) :
    c.comparator a b = (c.comparator b a).swap := by
  obtain ⟨k, asc⟩ := c
  cases asc
  · show (baseCmp k a b).swap = ((baseCmp k b a).swap).swap
    rw [baseCmp_swap k a b]
  · exact baseCmp_swap k a b

theorem reversed_comparator_flip (c : SortCriteria) (a b : Server) :
    c.reversed.comparator b a = c.comparator a b := by
  rw [comparator_reversed_swap, comparator_swap c b a, ord_swap_swap]

theorem cmpLe_antisymm_eq {m : α → α → Ordering} (hsw : ∀ x y, m x y = (m y x).swap)
    {x y : α} (h1 : cmpLe m x y = true) (h2 : cmpLe m y x = true) : m x y = .eq := by
  rw [cmpLe_eq_true] at h1 h2
  cases hm : m x y with
  | lt =>
    exfalso
    apply h2
    rw [hsw y x, hm]
    rfl
  | eq => rfl
  | gt => exact absurd hm h1

/-! ### The sorted view as a merge sort of the record sequence -/

theorem map_getD_range (l : List α) (d : α) :
    (List.range l.length).map (fun i => l.getD i d) = l := by
  apply List.ext_getElem
  · simp
  · intro i h1 h2
    simp only [List.getElem_map, List.getElem_range]
    exact List.getD_eq_getElem l d h2

theorem sorted_records_eq (l : List Server) (c : SortCriteria) :
    ServerList.sorted l c = l.mergeSort (cmpLe c.comparator) := by
  have h := List.map_mergeSort (f := fun i => l.getD i dServer)
      (r := fun i j => cmpLe c.comparator (l.getD i dServer) (l.getD j dServer))
      (s := cmpLe c.comparator) (l := List.range l.length)
      (fun _ _ _ _ => rfl)
  rw [map_getD_range] at h
  exact h

theorem sorted_perm (l : List Server) (c : SortCriteria) :
    (ServerList.sorted l c).Perm l := by
  rw [sorted_records_eq]
  exact List.mergeSort_perm l _

theorem sorted_pairwise (l : List Server) (c : SortCriteria) :
    (ServerList.sorted l c).Pairwise (fun a b => cmpLe c.comparator a b = true) := by
  rw [sorted_records_eq]
  apply List.sorted_mergeSort
  · intro a b d h1 h2
    exact comparator_le_trans c h1 h2
  · intro a b
    exact comparator_le_total c a b

theorem sorted_of_pairwise {l : List Server} {c : SortCriteria}
    (h : l.Pairwise (fun a b => cmpLe c.comparator a b = true)) :
    ServerList.sorted l c = l := by
  rw [sorted_records_eq]
  exact List.mergeSort_of_sorted h

/-- Two lists that are permutations of each other and both pairwise-ordered
by a relation that is antisymmetric on their members are equal. -/
theorem pairwise_perm_eq {R : α → α → Prop} :
    ∀ {l₁ l₂ : List α}, l₁.Perm l₂ →
      (∀ a ∈ l₁, ∀ b ∈ l₁, R a b → R b a → a = b) →
      l₁.Pairwise R → l₂.Pairwise R → l₁ = l₂
  | [], _, hp, _, _, _ => (hp.symm.eq_nil).symm
  | a :: t₁, l₂, hp, hanti, hs₁, hs₂ => by
    cases l₂ with
    | nil =>
      have := hp.eq_nil
      simp at this
    | cons b t₂ =>
      have hb1 : b ∈ a :: t₁ := hp.symm.subset (List.mem_cons_self b t₂)
      have ha2 : a ∈ b :: t₂ := hp.subset (List.mem_cons_self a t₁)
      have hab : a = b := by
        rcases List.mem_cons.mp hb1 with h1 | h1
        · exact h1.symm
        rcases List.mem_cons.mp ha2 with h2 | h2
        · exact h2
        exact hanti a (List.mem_cons_self a t₁) b hb1
          ((List.pairwise_cons.mp hs₁).1 b h1) ((List.pairwise_cons.mp hs₂).1 a h2)
      subst hab
      have htl : t₁ = t₂ := pairwise_perm_eq hp.cons_inv
        (fun x hx y hy => hanti x (List.mem_cons_of_mem a hx) y (List.mem_cons_of_mem a hy))
        (List.pairwise_cons.mp hs₁).2 (List.pairwise_cons.mp hs₂).2
      rw [htl]

/-! ### Facts about patterns and the filter -/

theorem strHas_nil : ∀ (s : Str), strHas [] s = true
  | [] => rfl
  | _ :: bs => by
    have ih := strHas_nil bs
    show (strLeads [] _ || strHas [] bs) = true
    rw [ih, Bool.or_true]

theorem parseLit_escapeRe : ∀ (s : Str), parseLit (escapeRe s) = some s
  | [] => rfl
  | c :: rest => by
    have ih := parseLit_escapeRe rest
    have hesc : escapeRe (c :: rest)
        = (if isMeta c then [92, c] else [c]) ++ escapeRe rest := by
      simp [escapeRe]
    rw [hesc]
    by_cases hm : isMeta c = true
    · rw [if_pos hm]
      show parseLit (92 :: c :: escapeRe rest) = some (c :: rest)
      simp only [parseLit, if_pos rfl, ih, Option.map_some']
      simp
    · rw [if_neg hm]
      have hc92 : ¬(c = 92) := by
        intro h
        subst h
        exact hm rfl
      show parseLit (c :: escapeRe rest) = some (c :: rest)
      unfold parseLit
      rw [if_neg hc92, if_neg hm, ih]
      rfl

theorem buildRe_escape (p : Str) (ci : Bool) :
    buildRe (escapeRe p) ci = some { lit := p, ci := ci } := by
  unfold buildRe
  rw [parseLit_escapeRe]
  rfl

theorem view_index_mem {v : ServerListView} (hall : ∀ i ∈ v.indices, i < v.source.length)
    {i : Nat} (hi : i < v.len) : v.index i ∈ v.source := by
  unfold ServerListView.index
  have hidx : v.indices.getD i 0 ∈ v.indices := by
    rw [List.getD_eq_getElem _ _ hi]
    exact List.getElem_mem _
  have hlt := hall _ hidx
  rw [List.getD_eq_getElem _ _ hlt]
  exact List.getElem_mem _

theorem filtered_singleton (f : Filter) (s : Server) :
    ServerList.filtered [s] f = if f.matches s then [s] else [] := by
  have h01 : List.range 1 = [0] := by decide
  unfold ServerList.filtered ServerListView.records ServerListView.filtered_from
  simp only [List.length_cons, List.length_nil, Nat.zero_add, h01]
  cases hm : f.matches s with
  | false =>
    rw [if_neg (by simp [hm])]
    simp [List.filter, hm]
  | true =>
    rw [if_pos (by simp [hm])]
    simp [List.filter, hm]

/-! ### Claim theorems -/

/-- C1: the filtered view is no longer than its source; every record in the
view satisfies the filter; every source record outside the view fails it;
and the view's indices are strictly increasing (source order preserved). -/
theorem filtered_view_correct (l : List Server) (f : Filter) :
    (ServerListView.filtered_from l f).len ≤ l.length ∧
    (∀ i ∈ (ServerListView.filtered_from l f).indices,
        f.matches (l.getD i dServer) = true) ∧
    (∀ i, i < l.length → i ∉ (ServerListView.filtered_from l f).indices →
        f.matches (l.getD i dServer) = false) ∧
    (ServerListView.filtered_from l f).indices.Pairwise (· < ·) ∧
    (∀ r ∈ ServerList.filtered l f, f.matches r = true) := by
  refine ⟨?_, ?_, ?_, ?_, ?_⟩
  · show ((List.range l.length).filter _).length ≤ l.length
    calc ((List.range l.length).filter _).length
        ≤ (List.range l.length).length := List.length_filter_le _ _
      _ = l.length := List.length_range l.length
  · intro i hi
    exact (List.mem_filter.mp hi).2
  · intro i hlt hni
    by_contra hmt
    apply hni
    apply List.mem_filter.mpr
    refine ⟨List.mem_range.mpr hlt, ?_⟩
    simpa using hmt
  · exact (List.pairwise_lt_range l.length).filter _
  · intro r hr
    obtain ⟨i, hi, rfl⟩ := List.mem_map.mp hr
    exact (List.mem_filter.mp hi).2

/-- Witness for C1 at concrete values: index 0 of the fixture list is in
the filtered view, so its record matches the fixture filter. -/
theorem filtered_view_correct_witness :
    Filter.matches exFilter (exSrc.getD 0 dServer) = true :=
  (filtered_view_correct exSrc exFilter).2.1 0 (by decide)

/-- C2: when the primary sort key compares equal, the ascending comparator
is exactly the id comparison, and in a view sorted under `SortKey::Name`
(ascending) records with equal names and different ids appear in
id-ascending order, wherever they started. -/
theorem tiebreak_id_ascending (k : SortKey) (a b : Server) (l : List Server)
    (hk : keyCmp k a b = .eq) :
    SortCriteria.comparator ⟨k, true⟩ a b = natCmp a.id b.id ∧
    (ServerList.sorted l ⟨SortKey.Name, true⟩).Pairwise
      (fun x y => x.name = y.name → x.id ≠ y.id → x.id < y.id) := by
  constructor
  · show baseCmp k a b = natCmp a.id b.id
    unfold baseCmp
    rw [hk]
    rfl
  · refine List.Pairwise.imp ?_ (sorted_pairwise l ⟨SortKey.Name, true⟩)
    intro x y h hname hne
    rw [cmpLe_eq_true] at h
    have hkey : strCmp x.name y.name = .eq := strCmp_eq_iff.mpr hname
    have hcmp : SortCriteria.comparator ⟨SortKey.Name, true⟩ x y = natCmp x.id y.id := by
      show baseCmp SortKey.Name x y = _
      unfold baseCmp
      show (strCmp x.name y.name).then _ = _
      rw [hkey]
      rfl
    rw [hcmp] at h
    rcases Nat.lt_trichotomy x.id y.id with hlt | heq | hgt
    · exact hlt
    · exact absurd heq hne
    · exact absurd (natCmp_gt_iff.mpr hgt) h

/-- Witness for C2: two fixture records with equal names are compared by
id under the ascending name comparator. -/
theorem tiebreak_id_ascending_witness :
    SortCriteria.comparator ⟨SortKey.Name, true⟩ exA exB = natCmp exA.id exB.id :=
  (tiebreak_id_ascending SortKey.Name exA exB exSrc (by decide)).1

/-- C3: on a list with pairwise distinct ids, sorting with the reversed
criteria yields exactly the reverse of the sorted record sequence: the flip
applies to the final primary-then-tiebreak order. -/
theorem sorted_reversed_reverse (l : List Server) (c : SortCriteria)
    (hids : l.Pairwise (fun a b => a.id ≠ b.id)) :
    ServerList.sorted l c.reversed = (ServerList.sorted l c).reverse := by
  have hasym : ∀ x ∈ l, ∀ y ∈ l, x.id = y.id → x = y := by
    have hsym : Symmetric (fun a b : Server => a.id ≠ b.id) := by
      intro a b h e
      exact h e.symm
    intro x hx y hy hxy
    by_contra hne
    exact hids.forall hsym hx hy hne hxy
  refine pairwise_perm_eq (R := fun a b => cmpLe c.reversed.comparator a b = true)
    ?_ ?_ ?_ ?_
  · exact (sorted_perm l c.reversed).trans
      ((sorted_perm l c).symm.trans (List.reverse_perm _).symm)
  · intro x hx y hy h1 h2
    have heq := cmpLe_antisymm_eq (comparator_swap c.reversed) h1 h2
    exact hasym x ((sorted_perm l c.reversed).subset hx)
      y ((sorted_perm l c.reversed).subset hy) (comparator_eq_id c.reversed heq)
  · exact sorted_pairwise l c.reversed
  · rw [List.pairwise_reverse]
    refine List.Pairwise.imp ?_ (sorted_pairwise l c)
    intro a b h
    unfold cmpLe
    rw [reversed_comparator_flip]
    exact h

/-- Witness for C3 on the fixture list (distinct ids). -/
theorem sorted_reversed_reverse_witness :
    ServerList.sorted exSrc (SortCriteria.mk SortKey.Name true).reversed
      = (ServerList.sorted exSrc ⟨SortKey.Name, true⟩).reverse :=
  sorted_reversed_reverse exSrc ⟨SortKey.Name, true⟩ (by decide)

/-- C4: a sorted view's index set is a permutation of `0..len`; the sorted
record sequence is a permutation of the source of equal length; a filtered
view's indices all lie below the source length; and indexing either view in
range resolves to a record of the backing sequence. -/
theorem view_indices_valid (l : List Server) (c : SortCriteria) (f : Filter) :
    (ServerListView.sorted_from l c).indices.Perm (List.range l.length) ∧
    (ServerList.sorted l c).Perm l ∧
    (ServerList.sorted l c).length = l.length ∧
    (∀ i ∈ (ServerListView.sorted_from l c).indices, i < l.length) ∧
    (∀ i ∈ (ServerListView.filtered_from l f).indices, i < l.length) ∧
    (∀ i, i < (ServerListView.sorted_from l c).len →
        (ServerListView.sorted_from l c).index i ∈ l) ∧
    (∀ i, i < (ServerListView.filtered_from l f).len →
        (ServerListView.filtered_from l f).index i ∈ l) := by
  have hsmem : ∀ i ∈ (ServerListView.sorted_from l c).indices, i < l.length := by
    intro i hi
    have : i ∈ List.range l.length := List.mem_mergeSort.mp hi
    exact List.mem_range.mp this
  have hfmem : ∀ i ∈ (ServerListView.filtered_from l f).indices, i < l.length := by
    intro i hi
    exact List.mem_range.mp (List.mem_filter.mp hi).1
  refine ⟨List.mergeSort_perm _ _, sorted_perm l c, (sorted_perm l c).length_eq,
    hsmem, hfmem, ?_, ?_⟩
  · intro i hi
    exact view_index_mem hsmem hi
  · intro i hi
    exact view_index_mem hfmem hi

/-- Witness for C4: index 0 of the filtered fixture view resolves to a
record of the fixture list. -/
theorem view_indices_valid_witness :
    (ServerListView.filtered_from exSrc exFilter).index 0 ∈ exSrc :=
  (view_indices_valid exSrc ⟨SortKey.Name, true⟩ exFilter).2.2.2.2.2.2 0 (by decide)

/-- C5: when every other criterion accepts the record,
`include_password_protected = true` matches regardless of the record's
flag while `false` matches exactly the unprotected records; accordingly a
record is present in the filtered view under `true`, and present under
`false` iff it is not password-protected. -/
theorem password_policy (f : Filter) (s : Server)
    (hname : f.name.is_match s.name = true) (hmap : f.map.is_match s.map = true)
    (hmode : f.mode = none) (hreg : f.region = none) (hbid : f.build_id = none) :
    (f.password_protected = true → f.matches s = true) ∧
    (f.password_protected = false → f.matches s = !s.password_protected) ∧
    (f.password_protected = true → ServerList.filtered [s] f = [s]) ∧
    (f.password_protected = false → s.password_protected = true →
        ServerList.filtered [s] f = []) ∧
    (f.password_protected = false → s.password_protected = false →
        ServerList.filtered [s] f = [s]) := by
  have hmt : ∀ b, f.password_protected = b → f.matches s = (!s.password_protected || b) := by
    intro b hb
    unfold Filter.matches
    rw [hname, hmap, hmode, hreg, hbid, hb]
    simp [boolLe]
  refine ⟨?_, ?_, ?_, ?_, ?_⟩
  · intro hb
    rw [hmt true hb, Bool.or_true]
  · intro hb
    rw [hmt false hb, Bool.or_false]
  · intro hb
    rw [filtered_singleton, if_pos (by rw [hmt true hb, Bool.or_true])]
  · intro hb hs
    rw [filtered_singleton, if_neg (by rw [hmt false hb, Bool.or_false, hs]; simp)]
  · intro hb hs
    rw [filtered_singleton, if_pos (by rw [hmt false hb, Bool.or_false, hs]; rfl)]

/-- Witness for C5: the fixture filter accepts the protected fixture
record because it includes password-protected servers. -/
theorem password_policy_witness :
    Filter.matches exFilter exA = true :=
  (password_policy exFilter exA (by decide) (by decide) rfl rfl rfl).1 rfl

/-- C6: absent (`None`) mode/region/build_id criteria and empty name/map
patterns are neutral: a filter with all criteria neutral and
`include_password_protected = true` matches every record. -/
theorem neutral_filter_matches (f : Filter) (s : Server)
    (hname : f.name.lit = []) (hmap : f.map.lit = [])
    (hmode : f.mode = none) (hreg : f.region = none) (hbid : f.build_id = none)
    (hpw : f.password_protected = true) :
    f.matches s = true := by
  unfold Filter.matches CRegex.is_match
  rw [hname, hmap, hmode, hreg, hbid, hpw]
  simp [strHas_nil, foldStr, boolLe]

/-- Witness for C6: the default filter with password-protected servers
included matches the fixture record. -/
theorem neutral_filter_matches_witness :
    Filter.matches (Filter.default.set_password_protected true) exA = true :=
  neutral_filter_matches (Filter.default.set_password_protected true) exA
    rfl rfl rfl rfl rfl rfl

/-- C7: escaping then building stores the literal pattern itself
(metacharacters are never interpreted), and after `set_name`/`set_map` the
name/map criterion holds exactly when the pattern occurs as a
case-insensitive substring of the record's field. -/
theorem set_pattern_substring (f : Filter) (p hay : Str) :
    buildRe (escapeRe p) true = some { lit := p, ci := true } ∧
    (f.set_name p).map (fun f2 => f2.name.is_match hay)
      = some (strHas (foldStr p) (foldStr hay)) ∧
    (f.set_map p).map (fun f2 => f2.map.is_match hay)
      = some (strHas (foldStr p) (foldStr hay)) := by
  refine ⟨buildRe_escape p true, ?_, ?_⟩
  · unfold Filter.set_name
    rw [buildRe_escape]
    rfl
  · unfold Filter.set_map
    rw [buildRe_escape]
    rfl

/-- C9: constructing the name/map criterion succeeds for every input
string: the input is escaped before the regex is built, so the build (and
the `unwrap` after it) can never fail, and match evaluation is total. -/
theorem set_pattern_total (f : Filter) (p : Str) :
    (f.set_name p).isSome = true ∧ (f.set_map p).isSome = true := by
  unfold Filter.set_name Filter.set_map
  rw [buildRe_escape]
  constructor <;> rfl

/-- C8: sorting an already sorted list again by the same criteria yields
the identical record sequence. -/
theorem sorted_idempotent (l : List Server) (c : SortCriteria) :
    ServerList.sorted (ServerList.sorted l c) c = ServerList.sorted l c :=
  sorted_of_pairwise (sorted_pairwise l c)

/-- C10: the default filter matches exactly the records that are not
password-protected. -/
theorem default_filter_matches (s : Server) :
    Filter.matches Filter.default s = !s.password_protected := by
  unfold Filter.matches Filter.default CRegex.is_match
  simp [strHas_nil, boolLe]

end Bugle
